import Mathlib

/-!
# Verification of `solution.js`

A shallow embedding of the polynomial-constant-term recovery program
(`src/solution.js`) together with proofs of the specified properties.

The program decodes base-encoded y-values from a JSON-like document,
selects `k` points sorted by ascending x, evaluates the Lagrange
interpolating polynomial at `x = 0` with exact rational arithmetic on
arbitrary-precision integers, and prints the result as an integer or a
reduced fraction.

JavaScript `BigInt` arithmetic is modelled by `ℤ`; `BigInt` truncated
division and remainder (`/`, `%`) are `Int.tdiv` / `Int.tmod`; a
`BigInt` division or remainder by zero throws a `RangeError`, modelled
by the `Except` error path (`JsErr.divByZero`).  Thrown JS exceptions
are modelled by `Except JsErr`.
-/

namespace Hashira

/-- Errors thrown by the program.  Each constructor corresponds to one
throw site of `solution.js` (or a `RangeError` raised by a built-in). -/
inductive JsErr where
  /-- `Invalid character '<ch>' in value` thrown in `parseBigIntFromBase`. -/
  | invalidChar (c : Char) : JsErr
  /-- `Digit <d> >= base <b> for char ...` thrown in `parseBigIntFromBase`. -/
  | digitTooBig (d b : ℤ) : JsErr
  /-- `RangeError` from `BigInt(Number(undefined))` when an entry's
  `base` field is missing or not numeric. -/
  | nanBigInt : JsErr
  /-- `JSON must contain "keys" with "k"`. -/
  | missingKeys : JsErr
  /-- `Not enough points: found <n>, required k=<k>`. -/
  | notEnoughPoints (found : ℕ) (k : ℕ) : JsErr
  /-- `RangeError: Division by zero` from a `BigInt` `/` or `%` with
  zero divisor. -/
  | divByZero : JsErr
deriving DecidableEq, Repr

/-- A decoded point `{x, y}` with `BigInt` coordinates. -/
structure Point where
  x : ℤ
  y : ℤ
deriving DecidableEq, Inhabited, Repr

/-- The result fraction `{num, den}` returned by `computeConstantC`. -/
structure Frac where
  num : ℤ
  den : ℤ
deriving DecidableEq, Inhabited, Repr

/-- Decidable equality of `Except` results, for concrete evaluation. -/
instance exceptDecEq {ε α : Type} [DecidableEq ε] [DecidableEq α] :
    DecidableEq (Except ε α) := fun x y =>
  match x, y with
  | .error a, .error b =>
    if h : a = b then .isTrue (by rw [h]) else .isFalse (fun hc => h (Except.error.inj hc))
  | .ok a, .ok b =>
    if h : a = b then .isTrue (by rw [h]) else .isFalse (fun hc => h (Except.ok.inj hc))
  | .error _, .ok _ => .isFalse (fun hc => Except.noConfusion hc)
  | .ok _, .error _ => .isFalse (fun hc => Except.noConfusion hc)

/-! ## Radix decoder (`parseBigIntFromBase`, solution.js lines 10-27) -/

/-- ASCII whitespace stripped by `String.prototype.trim` (the JS method
also strips some Unicode space code points, which never occur in the
inputs considered here). -/
def jsIsWs (c : Char) : Bool :=
  c = ' ' || c = '\t' || c = '\n' || c = '\r' || c = '\x0b' || c = '\x0c'

/-- `String.prototype.trim`: drop leading and trailing whitespace. -/
def jsTrim (s : List Char) : List Char :=
  ((s.dropWhile jsIsWs).reverse.dropWhile jsIsWs).reverse

/-- `String.prototype.toLowerCase` on one character, restricted to
ASCII (non-ASCII letters never survive the digit checks anyway). -/
def jsToLower (c : Char) : Char :=
  if 'A' ≤ c ∧ c ≤ 'Z' then Char.ofNat (c.toNat + 32) else c

/-- `while (s.length > 1 && s[0] === "0") s = s.slice(1);` -/
def stripZeros : List Char → List Char
  | '0' :: c :: rest => stripZeros (c :: rest)
  | s => s

/-- The digit branch of the character loop: `'0'..'9'` map to `0..9`,
`'a'..'z'` map to `10..35`, anything else throws `Invalid character`. -/
def digitVal (c : Char) : Except JsErr ℤ :=
  if '0' ≤ c ∧ c ≤ '9' then .ok ((c.toNat : ℤ) - 48)
  else if 'a' ≤ c ∧ c ≤ 'z' then .ok ((c.toNat : ℤ) - 97 + 10)
  else .error (.invalidChar c)

/-- The accumulation loop `value = value * base + digit`, including the
`digit >= base` check. -/
def digitLoop (base : ℤ) : List Char → ℤ → Except JsErr ℤ
  | [], value => .ok value
  | c :: rest, value =>
    match digitVal c with
    | .error e => .error e
    | .ok d =>
      if base ≤ d then .error (.digitTooBig d base)
      else digitLoop base rest (value * base + d)

/-- `parseBigIntFromBase(str, baseNum)`.  `str` is `none` when the JS
argument is `undefined` (missing `value` field); `baseNum` is `none`
when `BigInt(Number(baseNum))` would throw (missing or non-numeric
`base` field), and `some b` carries the coerced integer base.  The
falsiness check `if (!str) return 0n` fires for both `undefined` and
the empty string, before the base is converted. -/
def parseBigIntFromBase (str : Option String) (baseNum : Option ℤ) : Except JsErr ℤ :=
  match str with
  | none => .ok 0
  | some s =>
    if s = "" then .ok 0
    else
      match baseNum with
      | none => .error .nanBigInt
      | some base =>
        let t := stripZeros ((jsTrim s.data).map jsToLower)
        digitLoop base t 0

/-! ## gcd (`absBigInt` / `bigintGcd`, solution.js lines 29-44) -/

/-- `absBigInt(x)`. -/
def absBigInt (x : ℤ) : ℤ := if x < 0 then -x else x

/-- The Euclidean `while (b !== 0n)` loop of `bigintGcd` on the
non-negative magnitudes.  The second argument strictly decreases on
every iteration, so the loop runs at most `b` iterations; it is
embedded structurally with an iteration budget that the initial call
sets to `b` (the budget is never exhausted, see `gcdLoop_eq_gcd`). -/
def gcdLoop : ℕ → ℕ → ℕ → ℕ
  | _, a, 0 => a
  | 0, a, _ + 1 => a
  | fuel + 1, a, b + 1 => gcdLoop fuel (b + 1) (a % (b + 1))

/-- `bigintGcd(a, b)`: Euclid's algorithm on `|a|`, `|b|`. -/
def bigintGcd (a b : ℤ) : ℤ :=
  (gcdLoop (absBigInt b).toNat (absBigInt a).toNat (absBigInt b).toNat : ℤ)

/-! ## Lagrange evaluator (`computeConstantC`, solution.js lines 48-94) -/

/-- The inner `for (j ...)` loop of `computeConstantC`: starting from
`(1n, 1n)` accumulate `numer *= -points[j].x` and
`denom *= points[i].x - points[j].x` over all `j ≠ i`. -/
def termND (pts : List Point) (i : ℕ) : ℤ × ℤ :=
  (List.range pts.length).foldl
    (fun nd j =>
      if j = i then nd
      else (nd.1 * (-(pts.getD j default).x),
            nd.2 * ((pts.getD i default).x - (pts.getD j default).x)))
    (1, 1)

/-- One iteration of the outer `for (i ...)` loop of `computeConstantC`:
sign-normalize the term, cross-multiply it onto the running total and
reduce by the gcd.  `BigInt` division by zero (`g = 0n`) throws. -/
def lagrangeStep (pts : List Point) (acc : ℤ × ℤ) (i : ℕ) : Except JsErr (ℤ × ℤ) :=
  let yi := (pts.getD i default).y
  let nd := termND pts i
  let numer := if nd.2 < 0 then -nd.1 else nd.1
  let denom := if nd.2 < 0 then -nd.2 else nd.2
  let termNum := yi * numer
  let termDen := denom
  let newNum := acc.1 * termDen + termNum * acc.2
  let newDen := acc.2 * termDen
  let g := bigintGcd (if newNum < 0 then -newNum else newNum) newDen
  if g = 0 then .error .divByZero
  else .ok (newNum.tdiv g, newDen.tdiv g)

/-- The outer loop of `computeConstantC` over the index list. -/
def lagrangeLoop (pts : List Point) : List ℕ → ℤ × ℤ → Except JsErr (ℤ × ℤ)
  | [], acc => .ok acc
  | i :: rest, acc =>
    match lagrangeStep pts acc i with
    | .error e => .error e
    | .ok acc' => lagrangeLoop pts rest acc'

/-- `computeConstantC(points)`: run the loop from `0n/1n`, then perform
the final (normally redundant) reduction. -/
def computeConstantC (pts : List Point) : Except JsErr Frac :=
  match lagrangeLoop pts (List.range pts.length) (0, 1) with
  | .error e => .error e
  | .ok acc =>
    let finalG := bigintGcd (if acc.1 < 0 then -acc.1 else acc.1) acc.2
    if finalG = 0 then .error .divByZero
    else .ok ⟨acc.1.tdiv finalG, acc.2.tdiv finalG⟩

/-! ## Main script (solution.js lines 98-150) -/

/-- One non-`"keys"` entry of the parsed document, after the `entries`
map of the main script: `xBig = BigInt(key)`, plus the raw `base` and
`value` fields.  `base = none` models a missing/non-numeric base (where
`BigInt(Number(base))` would throw), `val = none` a missing value. -/
structure RawEntry where
  xBig : ℤ
  base : Option ℤ
  val : Option String
deriving DecidableEq, Inhabited, Repr

/-- The parsed input document: `keys.k` (`none` when missing) and the
non-`"keys"` entries in document enumeration order. -/
structure Document where
  keysK : Option ℕ
  entries : List RawEntry
deriving DecidableEq, Repr

/-- `entries.sort((a, b) => a.xBig < b.xBig ? -1 : a.xBig > b.xBig ? 1 : 0)`:
`Array.prototype.sort` with a consistent comparator is specified as a
stable sort by the comparator's order; the stable sort by a total
preorder is a unique function, here realised by (stable) insertion
sort on the `xBig` keys. -/
def sortEntries (l : List RawEntry) : List RawEntry :=
  List.insertionSort (fun a b => a.xBig ≤ b.xBig) l

/-- `entries.map((e) => ({x: e.xBig, y: parseBigIntFromBase(e.val, e.base)}))`
with the first thrown error propagated. -/
def decodePoints : List RawEntry → Except JsErr (List Point)
  | [] => .ok []
  | e :: rest =>
    match parseBigIntFromBase e.val e.base with
    | .error err => .error err
    | .ok y =>
      match decodePoints rest with
      | .error err => .error err
      | .ok ps => .ok (⟨e.xBig, y⟩ :: ps)

/-- The final `console.log` of the main script: integer when `den` is
one, defensive exact-quotient branch, otherwise `num/den`.  The `%`
with a zero `den` throws. -/
def formatResult (num den : ℤ) : Except JsErr String :=
  if den = 1 then .ok (toString num)
  else if den = 0 then .error .divByZero
  else if num.tmod den = 0 then .ok (toString (num.tdiv den))
  else .ok (toString num ++ "/" ++ toString den)

/-- The main script after JSON parsing: check `keys.k`, sort the
entries by `xBig`, check the count, take the first `k`, decode them to
points, compute the constant and format it. -/
def solve (doc : Document) : Except JsErr String :=
  match doc.keysK with
  | none => .error .missingKeys
  | some k =>
    let entries := sortEntries doc.entries
    if entries.length < k then .error (.notEnoughPoints entries.length k)
    else
      match decodePoints (entries.take k) with
      | .error e => .error e
      | .ok points =>
        match computeConstantC points with
        | .error e => .error e
        | .ok f => formatResult f.num f.den

/-! ## Specification-side definitions

These do not embed source code; they state the properties being
verified (canonical base-`b` encodings, integer polynomials, the error
taxonomy of the specification). -/

/-- The canonical digit character for a value `d < 36`. -/
def digitChar (d : ℕ) : Char :=
  if d < 10 then Char.ofNat (48 + d) else Char.ofNat (87 + d)

/-- The canonical base-`b` digit string of `n` (most significant digit
first, no leading zeros, `"0"` for zero).  This is the encoding half of
the round-trip property of the specification. -/
def encodeBase (b : ℕ) : ℕ → List Char
  | n =>
    if h : 2 ≤ b ∧ b ≤ n then
      encodeBase b (n / b) ++ [digitChar (n % b)]
    else [digitChar n]
termination_by n => n
decreasing_by
  exact Nat.div_lt_self (Nat.lt_of_lt_of_le (Nat.lt_of_lt_of_le Nat.zero_lt_two h.1) h.2)
    (Nat.lt_of_lt_of_le Nat.one_lt_two h.1)

/-- Evaluation of the integer polynomial with coefficient list `coeffs`
(constant coefficient first) by Horner's rule. -/
def polyEval (coeffs : List ℤ) (x : ℤ) : ℤ :=
  coeffs.foldr (fun c acc => c + x * acc) 0

/-- Does the specification classify this error as `InvalidDigit`? -/
def isInvalidDigit : JsErr → Bool
  | .invalidChar _ => true
  | .digitTooBig _ _ => true
  | _ => false

/-- A character of the (trimmed, lowercased) value string that the
decoder must reject under base `r`: not an alphanumeric digit, or a
digit whose value is `≥ r`. -/
def badChar (r : ℤ) (c : Char) : Bool :=
  match digitVal c with
  | .error _ => true
  | .ok d => decide (r ≤ d)

/-- The exact rational value of the `i`-th Lagrange term at `x = 0`:
`y_i · ∏_{j≠i} (-x_j) / ∏_{j≠i} (x_i - x_j)`. -/
def termQ (pts : List Point) (i : ℕ) : ℚ :=
  (((pts.getD i default).y : ℚ) *
      ∏ j ∈ (Finset.range pts.length).erase i, (-((pts.getD j default).x : ℚ))) /
    ∏ j ∈ (Finset.range pts.length).erase i,
      (((pts.getD i default).x : ℚ) - ((pts.getD j default).x : ℚ))

/-! ## Helper lemmas: gcd -/

theorem gcdLoop_eq_gcd : ∀ (fuel a b : ℕ), b ≤ fuel → gcdLoop fuel a b = Nat.gcd a b
  | _, a, 0, _ => by rw [gcdLoop, Nat.gcd_zero_right]
  | 0, _, b + 1, h => absurd h (by omega)
  | fuel + 1, a, b + 1, h => by
    rw [gcdLoop, gcdLoop_eq_gcd fuel (b + 1) (a % (b + 1))
        (by have h2 : a % (b + 1) < b + 1 := Nat.mod_lt a (by omega); omega),
      Nat.gcd_comm (b + 1) (a % (b + 1)), ← Nat.gcd_rec (b + 1) a, Nat.gcd_comm (b + 1) a]

theorem absBigInt_toNat (a : ℤ) : (absBigInt a).toNat = a.natAbs := by
  unfold absBigInt
  rcases lt_trichotomy a 0 with h | h | h
  · rw [if_pos h]
    omega
  · simp [h]
  · rw [if_neg (not_lt.mpr h.le)]
    omega

theorem bigintGcd_eq_gcd (a b : ℤ) : bigintGcd a b = (Int.gcd a b : ℤ) := by
  unfold bigintGcd
  rw [absBigInt_toNat, absBigInt_toNat, gcdLoop_eq_gcd _ _ _ (le_refl _)]
  rfl

theorem ite_neg_eq_abs (a : ℤ) : (if a < 0 then -a else a) = |a| := by
  rcases lt_trichotomy a 0 with h | h | h
  · rw [if_pos h, abs_of_neg h]
  · simp [h]
  · rw [if_neg (not_lt.mpr h.le), abs_of_pos h]

theorem bigintGcd_abs_eq_gcd (a b : ℤ) :
    bigintGcd (if a < 0 then -a else a) b = (Int.gcd a b : ℤ) := by
  rw [ite_neg_eq_abs, bigintGcd_eq_gcd, Int.gcd, Int.natAbs_abs]
  rfl

/-- The key facts about one gcd-reduction `(a, b) ↦ (a/g, b/g)` with
`g = bigintGcd(|a|, b)`, for `b ≠ 0`: the division does not throw, the
denominator stays nonzero (and positive if it was), the rational value
is unchanged, and the result is fully reduced. -/
theorem reduce_pair (a b : ℤ) (hb : b ≠ 0) :
    bigintGcd (if a < 0 then -a else a) b ≠ 0 ∧
    b.tdiv (bigintGcd (if a < 0 then -a else a) b) ≠ 0 ∧
    ((a.tdiv (bigintGcd (if a < 0 then -a else a) b) : ℚ) /
        (b.tdiv (bigintGcd (if a < 0 then -a else a) b) : ℚ) = (a : ℚ) / (b : ℚ)) ∧
    (0 < b → 0 < b.tdiv (bigintGcd (if a < 0 then -a else a) b)) ∧
    Int.gcd (a.tdiv (bigintGcd (if a < 0 then -a else a) b))
      (b.tdiv (bigintGcd (if a < 0 then -a else a) b)) = 1 := by
  rw [bigintGcd_abs_eq_gcd]
  set g : ℤ := (Int.gcd a b : ℤ) with hg
  have hgposN : 0 < Int.gcd a b := Int.gcd_pos_of_ne_zero_right a hb
  have hgpos : 0 < g := by rw [hg]; exact_mod_cast hgposN
  have hgne : g ≠ 0 := ne_of_gt hgpos
  have hdvda : g ∣ a := Int.gcd_dvd_left
  have hdvdb : g ∣ b := Int.gcd_dvd_right
  obtain ⟨a', ha'⟩ := hdvda
  obtain ⟨b', hb'⟩ := hdvdb
  have hta : a.tdiv g = a' := by rw [ha', Int.mul_tdiv_cancel_left _ hgne]
  have htb : b.tdiv g = b' := by rw [hb', Int.mul_tdiv_cancel_left _ hgne]
  have hb'ne : b' ≠ 0 := by
    intro h
    rw [h, mul_zero] at hb'
    exact hb hb'
  refine ⟨hgne, by rw [htb]; exact hb'ne, ?_, ?_, ?_⟩
  · rw [hta, htb, ha', hb']
    push_cast
    rw [mul_div_mul_left]
    exact_mod_cast hgne
  · intro hbpos
    rw [htb]
    have h1 : 0 < g * b' := hb' ▸ hbpos
    nlinarith
  · rw [Int.tdiv_eq_ediv_of_dvd (hg ▸ Int.gcd_dvd_left),
      Int.tdiv_eq_ediv_of_dvd (hg ▸ Int.gcd_dvd_right)]
    exact Int.gcd_div_gcd_div_gcd hgposN

/-! ## Helper lemmas: the inner product loop -/

theorem foldl_prod_pair (f g : ℕ → ℤ) (i : ℕ) :
    ∀ (L : List ℕ) (a b : ℤ),
      L.foldl (fun nd j => if j = i then nd else (nd.1 * f j, nd.2 * g j)) (a, b)
        = (a * ((L.filter (fun j => decide ¬ j = i)).map f).prod,
           b * ((L.filter (fun j => decide ¬ j = i)).map g).prod)
  | [], a, b => by simp
  | j :: L, a, b => by
    rw [List.foldl_cons]
    by_cases h : j = i
    · rw [if_pos h, List.filter_cons, if_neg (by simp [h])]
      exact foldl_prod_pair f g i L a b
    · rw [if_neg h, List.filter_cons, if_pos (by simp [h]), List.map_cons, List.map_cons,
        List.prod_cons, List.prod_cons, foldl_prod_pair f g i L (a * f j) (b * g j)]
      simp [mul_assoc]

theorem listRangeFilter_prod (f : ℕ → ℤ) (m i : ℕ) :
    (((List.range m).filter (fun j => decide ¬ j = i)).map f).prod
      = ∏ j ∈ (Finset.range m).erase i, f j := by
  have h1 : ((List.range m).filter (fun j => decide ¬ j = i)).Nodup :=
    (List.nodup_range m).filter _
  rw [← List.prod_toFinset f h1]
  congr 1
  ext j
  simp only [List.mem_toFinset, List.mem_filter, List.mem_range, Finset.mem_erase,
    Finset.mem_range, decide_not, Bool.not_eq_true', decide_eq_false_iff_not]
  tauto

theorem termND_eq_prod (pts : List Point) (i : ℕ) :
    termND pts i
      = (∏ j ∈ (Finset.range pts.length).erase i, (-(pts.getD j default).x),
         ∏ j ∈ (Finset.range pts.length).erase i,
           ((pts.getD i default).x - (pts.getD j default).x)) := by
  unfold termND
  rw [foldl_prod_pair, listRangeFilter_prod, listRangeFilter_prod, one_mul, one_mul]

/-! ## Helper lemmas: one outer-loop iteration -/

/-- Cross-multiplication followed by gcd reduction adds the exact
rational `tN / tD` to the running total. -/
theorem addStep_spec (a1 a2 tN tD : ℤ) (ha2 : a2 ≠ 0) (htD : tD ≠ 0) :
    bigintGcd (if a1 * tD + tN * a2 < 0 then -(a1 * tD + tN * a2) else a1 * tD + tN * a2)
        (a2 * tD) ≠ 0 ∧
    (a2 * tD).tdiv (bigintGcd
        (if a1 * tD + tN * a2 < 0 then -(a1 * tD + tN * a2) else a1 * tD + tN * a2)
        (a2 * tD)) ≠ 0 ∧
    (((a1 * tD + tN * a2).tdiv (bigintGcd
          (if a1 * tD + tN * a2 < 0 then -(a1 * tD + tN * a2) else a1 * tD + tN * a2)
          (a2 * tD)) : ℚ) /
        ((a2 * tD).tdiv (bigintGcd
          (if a1 * tD + tN * a2 < 0 then -(a1 * tD + tN * a2) else a1 * tD + tN * a2)
          (a2 * tD)) : ℚ)
      = (a1 : ℚ) / (a2 : ℚ) + (tN : ℚ) / (tD : ℚ)) ∧
    (0 < a2 * tD → 0 < (a2 * tD).tdiv (bigintGcd
        (if a1 * tD + tN * a2 < 0 then -(a1 * tD + tN * a2) else a1 * tD + tN * a2)
        (a2 * tD))) ∧
    Int.gcd ((a1 * tD + tN * a2).tdiv (bigintGcd
        (if a1 * tD + tN * a2 < 0 then -(a1 * tD + tN * a2) else a1 * tD + tN * a2)
        (a2 * tD)))
      ((a2 * tD).tdiv (bigintGcd
        (if a1 * tD + tN * a2 < 0 then -(a1 * tD + tN * a2) else a1 * tD + tN * a2)
        (a2 * tD))) = 1 := by
  have hden : a2 * tD ≠ 0 := mul_ne_zero ha2 htD
  obtain ⟨h1, h2, h3, h4, h5⟩ := reduce_pair (a1 * tD + tN * a2) (a2 * tD) hden
  refine ⟨h1, h2, ?_, h4, h5⟩
  rw [h3]
  have ha2' : (a2 : ℚ) ≠ 0 := Int.cast_ne_zero.mpr ha2
  have htD' : (tD : ℚ) ≠ 0 := Int.cast_ne_zero.mpr htD
  push_cast
  field_simp

/-- The value of one sign-normalized term as an exact rational. -/
theorem term_value (pts : List Point) (i : ℕ) (hD : (termND pts i).2 ≠ 0) :
    (((pts.getD i default).y * (if (termND pts i).2 < 0 then -(termND pts i).1
        else (termND pts i).1) : ℤ) : ℚ) /
      ((if (termND pts i).2 < 0 then -(termND pts i).2 else (termND pts i).2 : ℤ) : ℚ)
      = termQ pts i := by
  have h1 : ((termND pts i).1 : ℚ)
      = ∏ j ∈ (Finset.range pts.length).erase i, (-((pts.getD j default).x : ℚ)) := by
    rw [termND_eq_prod]
    push_cast
    rfl
  have h2 : ((termND pts i).2 : ℚ)
      = ∏ j ∈ (Finset.range pts.length).erase i,
          (((pts.getD i default).x : ℚ) - ((pts.getD j default).x : ℚ)) := by
    rw [termND_eq_prod]
    push_cast
    rfl
  unfold termQ
  rw [← h1, ← h2]
  rcases lt_or_ge (termND pts i).2 0 with h | h
  · rw [if_pos h, if_pos h]
    push_cast
    rw [mul_neg, neg_div_neg_eq]
  · rw [if_neg (not_lt.mpr h), if_neg (not_lt.mpr h)]
    push_cast
    rfl

/-- One outer-loop iteration on a well-formed state, when the term's
denominator is nonzero: no error, the state denominator stays nonzero,
the state is reduced, the exact value grows by `termQ`, and positivity
of the denominator is preserved. -/
theorem lagrangeStep_ok (pts : List Point) (i : ℕ) (acc : ℤ × ℤ)
    (hacc : acc.2 ≠ 0) (hD : (termND pts i).2 ≠ 0) :
    ∃ acc' : ℤ × ℤ, lagrangeStep pts acc i = .ok acc' ∧ acc'.2 ≠ 0 ∧
      Int.gcd acc'.1 acc'.2 = 1 ∧
      ((acc'.1 : ℚ) / (acc'.2 : ℚ) = (acc.1 : ℚ) / (acc.2 : ℚ) + termQ pts i) ∧
      (0 < acc.2 → 0 < acc'.2) := by
  simp only [lagrangeStep]
  set yi := (pts.getD i default).y with hyi
  set N := (termND pts i).1 with hN
  set D := (termND pts i).2 with hDd
  set N' := if D < 0 then -N else N with hN'
  set D' := if D < 0 then -D else D with hD'
  have hD'abs : D' = |D| := ite_neg_eq_abs D
  have hD'pos : 0 < D' := hD'abs ▸ abs_pos.mpr hD
  have hD'ne : D' ≠ 0 := ne_of_gt hD'pos
  obtain ⟨hg, hden, hval, hpos, hred⟩ := addStep_spec acc.1 acc.2 (yi * N') D' hacc hD'ne
  rw [if_neg hg]
  refine ⟨_, rfl, hden, hred, ?_, fun h2pos => hpos (mul_pos h2pos hD'pos)⟩
  rw [hval]
  have := term_value pts i hD
  rw [← hDd, ← hN, ← hyi, ← hN', ← hD'] at this
  rw [← this]

/-! ## Helper lemmas: the outer loop -/

theorem getD_eq_getElem (pts : List Point) (i : ℕ) (h : i < pts.length) :
    pts.getD i default = pts[i] := by
  rw [List.getD_eq_getElem?_getD, List.getElem?_eq_getElem h]
  rfl

theorem pairwise_x_ne (pts : List Point)
    (hdist : pts.Pairwise (fun a b => a.x ≠ b.x)) {i j : ℕ}
    (hi : i < pts.length) (hj : j < pts.length) (hij : i ≠ j) :
    (pts.getD i default).x ≠ (pts.getD j default).x := by
  rw [getD_eq_getElem _ _ hi, getD_eq_getElem _ _ hj]
  rcases Nat.lt_or_ge i j with h | h
  · exact List.pairwise_iff_getElem.mp hdist i j hi hj h
  · exact (List.pairwise_iff_getElem.mp hdist j i hj hi
      (Nat.lt_of_le_of_ne h (Ne.symm hij))).symm

theorem termND_snd_ne_zero (pts : List Point)
    (hdist : pts.Pairwise (fun a b => a.x ≠ b.x)) (i : ℕ) (hi : i < pts.length) :
    (termND pts i).2 ≠ 0 := by
  rw [termND_eq_prod]
  dsimp only
  refine Finset.prod_ne_zero_iff.mpr fun j hj => ?_
  obtain ⟨hji, hjm⟩ := Finset.mem_erase.mp hj
  exact sub_ne_zero.mpr (pairwise_x_ne pts hdist hi (Finset.mem_range.mp hjm) (Ne.symm hji))

/-- The outer loop never throws and accumulates the exact rational sum
of the terms, preserving positivity and reducedness of the state, as
long as every visited term has a nonzero denominator. -/
theorem lagrangeLoop_ok (pts : List Point) :
    ∀ (L : List ℕ) (acc : ℤ × ℤ), acc.2 ≠ 0 →
      (∀ i ∈ L, (termND pts i).2 ≠ 0) →
      ∃ acc', lagrangeLoop pts L acc = .ok acc' ∧ acc'.2 ≠ 0 ∧
        ((acc'.1 : ℚ) / (acc'.2 : ℚ)
            = (acc.1 : ℚ) / (acc.2 : ℚ) + (L.map (termQ pts)).sum) ∧
        (0 < acc.2 → 0 < acc'.2) ∧
        (0 < acc.2 ∧ Int.gcd acc.1 acc.2 = 1 → 0 < acc'.2 ∧ Int.gcd acc'.1 acc'.2 = 1)
  | [], acc, hacc, _ => ⟨acc, rfl, hacc, by simp, fun h => h, fun h => h⟩
  | i :: L, acc, hacc, hall => by
    obtain ⟨acc1, hstep, h1ne, h1red, h1val, h1pos⟩ :=
      lagrangeStep_ok pts i acc hacc (hall i (List.mem_cons_self i L))
    obtain ⟨acc', hloop, h2ne, h2val, h2pos, h2inv⟩ :=
      lagrangeLoop_ok pts L acc1 h1ne (fun j hj => hall j (List.mem_cons_of_mem _ hj))
    refine ⟨acc', ?_, h2ne, ?_, fun hpos => h2pos (h1pos hpos),
      fun ⟨hp, _⟩ => h2inv ⟨h1pos hp, h1red⟩⟩
    · rw [lagrangeLoop, hstep]
      exact hloop
    · rw [h2val, h1val, List.map_cons, List.sum_cons]
      ring

theorem toFinset_listRange (m : ℕ) : (List.range m).toFinset = Finset.range m := by
  ext j
  simp

theorem listRange_map_sum (f : ℕ → ℚ) (m : ℕ) :
    ((List.range m).map f).sum = ∑ i ∈ Finset.range m, f i := by
  rw [← List.sum_toFinset f (List.nodup_range m), toFinset_listRange]

/-- `computeConstantC` on points with pairwise distinct x-coordinates:
it succeeds, the result has a positive denominator, is fully reduced,
and its exact rational value is the sum of the Lagrange terms at 0. -/
theorem computeConstantC_spec (pts : List Point)
    (hdist : pts.Pairwise (fun a b => a.x ≠ b.x)) :
    ∃ f : Frac, computeConstantC pts = .ok f ∧ 0 < f.den ∧ Int.gcd f.num f.den = 1 ∧
      (f.num : ℚ) / (f.den : ℚ) = ∑ i ∈ Finset.range pts.length, termQ pts i := by
  obtain ⟨acc', hloop, hne, hval, hpos, hinv⟩ :=
    lagrangeLoop_ok pts (List.range pts.length) (0, 1) one_ne_zero
      (fun i hi => termND_snd_ne_zero pts hdist i (List.mem_range.mp hi))
  obtain ⟨hapos, hared⟩ := hinv ⟨one_pos, by simp⟩
  obtain ⟨hg, hdne, hdval, hdpos, hdred⟩ := reduce_pair acc'.1 acc'.2 hne
  unfold computeConstantC
  rw [hloop]
  dsimp only
  rw [if_neg hg]
  refine ⟨_, rfl, hdpos hapos, hdred, ?_⟩
  rw [hdval, hval, listRange_map_sum]
  simp

/-! ## Helper lemmas: Lagrange interpolation mathematics -/

/-- The rational polynomial with the given integer coefficient list
(constant coefficient first). -/
noncomputable def polyQ (coeffs : List ℤ) : Polynomial ℚ :=
  ∑ i ∈ Finset.range coeffs.length, Polynomial.C ((coeffs.getD i 0 : ℤ) : ℚ) * Polynomial.X ^ i

theorem polyEval_eq_sum (coeffs : List ℤ) (x : ℤ) :
    polyEval coeffs x = ∑ i ∈ Finset.range coeffs.length, coeffs.getD i 0 * x ^ i := by
  induction coeffs with
  | nil => simp [polyEval]
  | cons c cs ih =>
    have h : polyEval (c :: cs) x = c + x * polyEval cs x := rfl
    rw [h, ih, List.length_cons, Finset.sum_range_succ']
    simp only [List.getD_cons_succ, List.getD_cons_zero, pow_zero, mul_one, pow_succ,
      Finset.mul_sum]
    rw [add_comm]
    congr 1
    refine Finset.sum_congr rfl fun i _ => by ring

theorem polyQ_eval (coeffs : List ℤ) (q : ℚ) :
    (polyQ coeffs).eval q
      = ∑ i ∈ Finset.range coeffs.length, ((coeffs.getD i 0 : ℤ) : ℚ) * q ^ i := by
  rw [polyQ, Polynomial.eval_finset_sum]
  simp

theorem polyQ_eval_int (coeffs : List ℤ) (x : ℤ) :
    (polyQ coeffs).eval ((x : ℤ) : ℚ) = ((polyEval coeffs x : ℤ) : ℚ) := by
  rw [polyQ_eval, polyEval_eq_sum]
  push_cast
  rfl

theorem polyQ_degree_lt (coeffs : List ℤ) :
    (polyQ coeffs).degree < (coeffs.length : WithBot ℕ) := by
  refine lt_of_le_of_lt (Polynomial.degree_sum_le _ _) ?_
  rw [Finset.sup_lt_iff (WithBot.bot_lt_coe _)]
  intro i hi
  exact lt_of_le_of_lt (Polynomial.degree_C_mul_X_pow_le i _)
    (WithBot.coe_lt_coe.mpr (Finset.mem_range.mp hi))

/-- The Lagrange interpolation identity specialised to `x = 0`: for
points with distinct x-coordinates lying on an integer polynomial of
degree `< pts.length`, the sum of the Lagrange terms at 0 is the
polynomial's constant value. -/
theorem sum_termQ_eq (pts : List Point) (coeffs : List ℤ)
    (hdeg : coeffs.length ≤ pts.length)
    (hdist : pts.Pairwise (fun a b => a.x ≠ b.x))
    (hon : ∀ pt ∈ pts, polyEval coeffs pt.x = pt.y) :
    ∑ i ∈ Finset.range pts.length, termQ pts i = ((polyEval coeffs 0 : ℤ) : ℚ) := by
  classical
  have hvs : Set.InjOn (fun j => ((pts.getD j default).x : ℚ)) (Finset.range pts.length) := by
    intro i hi j hj hij
    by_contra hne
    exact pairwise_x_ne pts hdist (Finset.mem_range.mp (Finset.mem_coe.mp hi))
      (Finset.mem_range.mp (Finset.mem_coe.mp hj)) hne (Int.cast_injective hij)
  have hdegree : (polyQ coeffs).degree < ((Finset.range pts.length).card : WithBot ℕ) := by
    rw [Finset.card_range]
    exact lt_of_lt_of_le (polyQ_degree_lt coeffs) (WithBot.coe_le_coe.mpr hdeg)
  have heval : ∀ i ∈ Finset.range pts.length,
      (polyQ coeffs).eval ((fun j => ((pts.getD j default).x : ℚ)) i)
        = (fun j => ((pts.getD j default).y : ℚ)) i := by
    intro i hi
    dsimp only
    rw [polyQ_eval_int]
    have hmem : pts.getD i default ∈ pts := by
      rw [getD_eq_getElem pts i (Finset.mem_range.mp hi)]
      exact List.getElem_mem _
    rw [hon _ hmem]
  have hinterp : polyQ coeffs
      = Lagrange.interpolate (Finset.range pts.length)
          (fun j => ((pts.getD j default).x : ℚ)) (fun j => ((pts.getD j default).y : ℚ)) :=
    Lagrange.eq_interpolate_of_eval_eq _ hvs hdegree heval
  have h0 : (polyQ coeffs).eval 0
      = ∑ i ∈ Finset.range pts.length, ((pts.getD i default).y : ℚ) *
          (Lagrange.basis (Finset.range pts.length)
            (fun j => ((pts.getD j default).x : ℚ)) i).eval 0 := by
    rw [hinterp, Lagrange.interpolate_apply, Polynomial.eval_finset_sum]
    refine Finset.sum_congr rfl fun i _ => ?_
    rw [Polynomial.eval_mul, Polynomial.eval_C]
  have hbasis : ∀ i ∈ Finset.range pts.length,
      (Lagrange.basis (Finset.range pts.length)
          (fun j => ((pts.getD j default).x : ℚ)) i).eval 0
        = (∏ j ∈ (Finset.range pts.length).erase i, (-((pts.getD j default).x : ℚ))) /
            ∏ j ∈ (Finset.range pts.length).erase i,
              (((pts.getD i default).x : ℚ) - ((pts.getD j default).x : ℚ)) := by
    intro i _
    rw [Lagrange.basis, Polynomial.eval_prod]
    have hstep : ∀ j ∈ (Finset.range pts.length).erase i,
        (Lagrange.basisDivisor ((fun j => ((pts.getD j default).x : ℚ)) i)
            ((fun j => ((pts.getD j default).x : ℚ)) j)).eval 0
          = (((pts.getD i default).x : ℚ) - ((pts.getD j default).x : ℚ))⁻¹ *
              (-((pts.getD j default).x : ℚ)) := by
      intro j _
      simp [Lagrange.basisDivisor]
    rw [Finset.prod_congr rfl hstep, Finset.prod_mul_distrib, Finset.prod_inv_distrib,
      div_eq_mul_inv, mul_comm]
  have hcast0 : ((polyEval coeffs 0 : ℤ) : ℚ) = (polyQ coeffs).eval 0 := by
    have := polyQ_eval_int coeffs 0
    simpa using this.symm
  rw [hcast0, h0]
  refine Finset.sum_congr rfl fun i hi => ?_
  rw [hbasis i hi]
  unfold termQ
  rw [mul_div_assoc]

/-! ## Helper lemmas: behaviour on a zero term denominator -/

theorem bigintGcd_zero_zero : bigintGcd 0 0 = 0 := by
  unfold bigintGcd absBigInt gcdLoop
  norm_num

theorem ite_neg_zero (z : ℤ) : (if (0 : ℤ) < 0 then -z else z) = z := by norm_num

theorem step_result_cases (X g : ℤ) :
    (if g = 0 then (Except.error JsErr.divByZero : Except JsErr (ℤ × ℤ))
      else .ok (X.tdiv g, (0 : ℤ).tdiv g)) = .error .divByZero ∨
    ∃ acc', (if g = 0 then (Except.error JsErr.divByZero : Except JsErr (ℤ × ℤ))
      else .ok (X.tdiv g, (0 : ℤ).tdiv g)) = .ok acc' ∧ acc'.2 = 0 := by
  by_cases hg : g = 0
  · exact Or.inl (by rw [if_pos hg])
  · exact Or.inr ⟨_, by rw [if_neg hg], Int.zero_tdiv g⟩

/-- A step whose term denominator is zero either throws or zeroes the
state denominator. -/
theorem lagrangeStep_den_zero (pts : List Point) (i : ℕ) (acc : ℤ × ℤ)
    (hD : (termND pts i).2 = 0) :
    lagrangeStep pts acc i = .error .divByZero ∨
      ∃ acc', lagrangeStep pts acc i = .ok acc' ∧ acc'.2 = 0 := by
  simp only [lagrangeStep, hD, ite_neg_zero, mul_zero, zero_add]
  exact step_result_cases _ _

/-- A step from a state with zero denominator either throws or keeps
the denominator zero. -/
theorem lagrangeStep_acc_zero (pts : List Point) (i : ℕ) (acc : ℤ × ℤ)
    (hacc : acc.2 = 0) :
    lagrangeStep pts acc i = .error .divByZero ∨
      ∃ acc', lagrangeStep pts acc i = .ok acc' ∧ acc'.2 = 0 := by
  simp only [lagrangeStep, hacc, mul_zero, add_zero, zero_mul]
  exact step_result_cases _ _

/-- A step with both the state denominator and the term denominator
zero always throws (`gcd(0, 0) = 0` and `BigInt` division by zero). -/
theorem lagrangeStep_both_zero (pts : List Point) (i : ℕ) (acc : ℤ × ℤ)
    (hacc : acc.2 = 0) (hD : (termND pts i).2 = 0) :
    lagrangeStep pts acc i = .error .divByZero := by
  simp only [lagrangeStep, hacc, hD, ite_neg_zero, mul_zero, zero_add, zero_mul, add_zero,
    bigintGcd_zero_zero]
  simp

/-- Once the state denominator is zero, reaching any index whose term
denominator is zero throws. -/
theorem lagrangeLoop_zero_den (pts : List Point) (q : ℕ) (hq : (termND pts q).2 = 0) :
    ∀ (L : List ℕ) (acc : ℤ × ℤ), acc.2 = 0 → q ∈ L →
      lagrangeLoop pts L acc = .error .divByZero
  | [], _, _, hmem => absurd hmem (List.not_mem_nil _)
  | i :: L, acc, hacc, hmem => by
    by_cases hiD : (termND pts i).2 = 0
    · rw [lagrangeLoop, lagrangeStep_both_zero pts i acc hacc hiD]
    · have hmem' : q ∈ L := by
        rcases List.mem_cons.mp hmem with h | h
        · exact absurd (h ▸ hq) hiD
        · exact h
      rcases lagrangeStep_acc_zero pts i acc hacc with herr | ⟨acc', hok, hzero⟩
      · rw [lagrangeLoop, herr]
      · rw [lagrangeLoop, hok]
        exact lagrangeLoop_zero_den pts q hq L acc' hzero hmem'

/-- Two distinct indices with zero term denominators in the remaining
index list force the loop to throw. -/
theorem lagrangeLoop_two_zero (pts : List Point) (p q : ℕ) (hpq : p ≠ q)
    (hp : (termND pts p).2 = 0) (hq : (termND pts q).2 = 0) :
    ∀ (L : List ℕ) (acc : ℤ × ℤ), p ∈ L → q ∈ L →
      lagrangeLoop pts L acc = .error .divByZero
  | [], _, hpmem, _ => absurd hpmem (List.not_mem_nil _)
  | i :: L, acc, hpmem, hqmem => by
    by_cases hacc : acc.2 = 0
    · exact lagrangeLoop_zero_den pts q hq (i :: L) acc hacc hqmem
    · by_cases hiD : (termND pts i).2 = 0
      · rcases lagrangeStep_den_zero pts i acc hiD with herr | ⟨acc', hok, hzero⟩
        · rw [lagrangeLoop, herr]
        · have htail : p ∈ L ∨ q ∈ L := by
            rcases List.mem_cons.mp hpmem with h1 | h1
            · rcases List.mem_cons.mp hqmem with h2 | h2
              · exact absurd (h1.trans h2.symm) hpq
              · exact Or.inr h2
            · exact Or.inl h1
          rw [lagrangeLoop, hok]
          rcases htail with h | h
          · exact lagrangeLoop_zero_den pts p hp L acc' hzero h
          · exact lagrangeLoop_zero_den pts q hq L acc' hzero h
      · have hip : i ≠ p := fun h => hiD (h ▸ hp)
        have hiq : i ≠ q := fun h => hiD (h ▸ hq)
        have hpmem' : p ∈ L := by
          rcases List.mem_cons.mp hpmem with h | h
          · exact absurd h.symm hip
          · exact h
        have hqmem' : q ∈ L := by
          rcases List.mem_cons.mp hqmem with h | h
          · exact absurd h.symm hiq
          · exact h
        obtain ⟨acc', hok, _, _, _, _⟩ := lagrangeStep_ok pts i acc hacc hiD
        rw [lagrangeLoop, hok]
        exact lagrangeLoop_two_zero pts p q hpq hp hq L acc' hpmem' hqmem'

/-- A duplicated x-coordinate zeroes the term denominator at both
indices involved. -/
theorem termND_snd_zero_of_dup (pts : List Point) (p q : ℕ)
    (hp : p < pts.length) (hq : q < pts.length) (hne : p ≠ q)
    (hx : (pts.getD p default).x = (pts.getD q default).x) :
    (termND pts p).2 = 0 := by
  rw [termND_eq_prod]
  dsimp only
  refine Finset.prod_eq_zero (i := q) ?_ ?_
  · exact Finset.mem_erase.mpr ⟨Ne.symm hne, Finset.mem_range.mpr hq⟩
  · rw [hx, sub_self]

/-! ## Helper lemmas: reducedness of any successful result -/

theorem reduced_of_div_gcd (a b : ℤ) (hg : Int.gcd a b ≠ 0) :
    Int.gcd (a.tdiv (Int.gcd a b : ℤ)) (b.tdiv (Int.gcd a b : ℤ)) = 1 := by
  rw [Int.tdiv_eq_ediv_of_dvd Int.gcd_dvd_left, Int.tdiv_eq_ediv_of_dvd Int.gcd_dvd_right]
  exact Int.gcd_div_gcd_div_gcd (Nat.pos_of_ne_zero hg)

/-- Whatever happened in the loop, the final reduction step leaves any
successful result fully reduced. -/
theorem computeConstantC_ok_reduced (pts : List Point) (f : Frac)
    (h : computeConstantC pts = .ok f) : Int.gcd f.num f.den = 1 := by
  unfold computeConstantC at h
  cases hl : lagrangeLoop pts (List.range pts.length) (0, 1) with
  | error e =>
    rw [hl] at h
    exact Except.noConfusion h
  | ok acc =>
    rw [hl] at h
    dsimp only at h
    by_cases hg : bigintGcd (if acc.1 < 0 then -acc.1 else acc.1) acc.2 = 0
    · rw [if_pos hg] at h
      exact Except.noConfusion h
    · rw [if_neg hg] at h
      have hfeq := Except.ok.inj h
      rw [← hfeq]
      dsimp only
      rw [bigintGcd_abs_eq_gcd]
      apply reduced_of_div_gcd
      intro h0
      apply hg
      rw [bigintGcd_abs_eq_gcd, h0]
      rfl

/-! ## Claim C1 -/

/-- **C1** (amended).  For every list of `k ≥ 1` points with pairwise
distinct x-coordinates that all lie on a single integer polynomial of
degree `< k`, `computeConstantC` returns a fraction whose exact
rational value equals `P(0)`.  (The claim's particular instance is
wrong in the specification: the points `{(1,3),(2,6),(3,11)}` lie on
`y = x² + 2`, not on `y = x² + x + 1`, and yield constant term `2`,
not `1`; see the counterexample.) -/
theorem c1_constant_term_exact (pts : List Point) (coeffs : List ℤ)
    (hk : 1 ≤ pts.length) (hdeg : coeffs.length ≤ pts.length)
    (hdist : pts.Pairwise (fun a b => a.x ≠ b.x))
    (hon : ∀ pt ∈ pts, polyEval coeffs pt.x = pt.y) :
    ∃ f : Frac, computeConstantC pts = .ok f ∧ 0 < f.den ∧
      (f.num : ℚ) / (f.den : ℚ) = ((polyEval coeffs 0 : ℤ) : ℚ) := by
  obtain ⟨f, hok, hpos, _, hval⟩ := computeConstantC_spec pts hdist
  exact ⟨f, hok, hpos, by rw [hval, sum_termQ_eq pts coeffs hdeg hdist hon]⟩

/-- **C1, counterexample.**  On the points `{(1,3),(2,6),(3,11)}` with
`k = 3` the program returns the constant term `2`, not `1` as claimed;
indeed the cited polynomial `y = x² + x + 1` does not pass through
`(2, 6)` (it gives `7`), while `y = x² + 2` fits all three points. -/
theorem c1_counterexample :
    computeConstantC [⟨1, 3⟩, ⟨2, 6⟩, ⟨3, 11⟩] = .ok ⟨2, 1⟩ ∧
      ((2 : ℚ) / (1 : ℚ) ≠ 1) ∧ polyEval [1, 1, 1] 2 ≠ 6 ∧
      polyEval [2, 0, 1] 1 = 3 ∧ polyEval [2, 0, 1] 2 = 6 ∧ polyEval [2, 0, 1] 3 = 11 :=
  ⟨by decide, by norm_num, by decide, by decide, by decide, by decide⟩

/-- **C1, witness.** -/
theorem c1_witness :
    ∃ f : Frac, computeConstantC [⟨1, 3⟩, ⟨2, 6⟩, ⟨3, 11⟩] = .ok f ∧ 0 < f.den ∧
      (f.num : ℚ) / (f.den : ℚ) = ((polyEval [2, 0, 1] 0 : ℤ) : ℚ) :=
  c1_constant_term_exact [⟨1, 3⟩, ⟨2, 6⟩, ⟨3, 11⟩] [2, 0, 1] (by decide) (by decide)
    (by decide) (by decide)

/-! ## Claim C2 -/

/-- **C2.**  If two of the selected points share an x-coordinate, the
computation throws the `BigInt` division-by-zero `RangeError` (the
`DegenerateInput` condition of the specification), so no result is
printed and no silent wrong answer is produced. -/
theorem c2_duplicate_x_throws (pts : List Point) (p q : ℕ)
    (hp : p < pts.length) (hq : q < pts.length) (hne : p ≠ q)
    (hx : (pts.getD p default).x = (pts.getD q default).x) :
    computeConstantC pts = .error .divByZero := by
  have hDp := termND_snd_zero_of_dup pts p q hp hq hne hx
  have hDq := termND_snd_zero_of_dup pts q p hq hp (Ne.symm hne) hx.symm
  have hloop := lagrangeLoop_two_zero pts p q hne hDp hDq (List.range pts.length) (0, 1)
    (List.mem_range.mpr hp) (List.mem_range.mpr hq)
  unfold computeConstantC
  rw [hloop]

/-- **C2, witness.** -/
theorem c2_witness : computeConstantC [⟨1, 3⟩, ⟨1, 5⟩] = .error .divByZero :=
  c2_duplicate_x_throws [⟨1, 3⟩, ⟨1, 5⟩] 0 1 (by decide) (by decide) (by decide) (by decide)

/-! ## Claim C3 -/

/-- **C3.**  Under the distinct-x precondition, after every addition of
the loop (i.e. after any prefix of the iteration sequence) and at
return, the accumulated fraction satisfies the invariant: positive
denominator and `gcd(|num|, den) = 1`. -/
theorem c3_fraction_invariant (pts : List Point)
    (hdist : pts.Pairwise (fun a b => a.x ≠ b.x)) :
    (∀ L1 L2 : List ℕ, List.range pts.length = L1 ++ L2 →
      ∃ acc : ℤ × ℤ, lagrangeLoop pts L1 (0, 1) = .ok acc ∧ 0 < acc.2 ∧
        Int.gcd acc.1 acc.2 = 1) ∧
    ∃ f : Frac, computeConstantC pts = .ok f ∧ 0 < f.den ∧ Int.gcd f.num f.den = 1 := by
  constructor
  · intro L1 L2 hsplit
    have hall : ∀ i ∈ L1, (termND pts i).2 ≠ 0 := by
      intro i hi
      have hmem : i ∈ List.range pts.length := by
        rw [hsplit]
        exact List.mem_append_left L2 hi
      exact termND_snd_ne_zero pts hdist i (List.mem_range.mp hmem)
    obtain ⟨acc, hloop, _, _, _, hinv⟩ := lagrangeLoop_ok pts L1 (0, 1) one_ne_zero hall
    obtain ⟨hpos, hred⟩ := hinv ⟨one_pos, by simp⟩
    exact ⟨acc, hloop, hpos, hred⟩
  · obtain ⟨f, hok, hpos, hred, _⟩ := computeConstantC_spec pts hdist
    exact ⟨f, hok, hpos, hred⟩

/-- **C3, witness.** -/
theorem c3_witness :
    ∃ f : Frac, computeConstantC [⟨1, 3⟩, ⟨2, 6⟩] = .ok f ∧ 0 < f.den ∧
      Int.gcd f.num f.den = 1 :=
  (c3_fraction_invariant [⟨1, 3⟩, ⟨2, 6⟩] (by decide)).2

/-! ## Helper lemmas: the radix decoder -/

theorem digitVal_digitChar : ∀ d : ℕ, d < 36 → digitVal (digitChar d) = .ok (d : ℤ) := by
  decide

theorem digitChar_not_ws : ∀ d : ℕ, d < 36 → jsIsWs (digitChar d) = false := by decide

theorem digitChar_lower : ∀ d : ℕ, d < 36 → jsToLower (digitChar d) = digitChar d := by decide

theorem dropWhile_eq_self_of_none (p : Char → Bool) (l : List Char)
    (h : ∀ c ∈ l, p c = false) : l.dropWhile p = l := by
  cases l with
  | nil => rfl
  | cons c t =>
    rw [List.dropWhile_cons, if_neg]
    simp [h c (List.mem_cons_self c t)]

theorem jsTrim_eq_self (l : List Char) (h : ∀ c ∈ l, jsIsWs c = false) : jsTrim l = l := by
  unfold jsTrim
  rw [dropWhile_eq_self_of_none _ _ h,
    dropWhile_eq_self_of_none _ _ (fun c hc => h c (List.mem_reverse.mp hc)),
    List.reverse_reverse]

theorem map_eq_self_of_fixed (f : Char → Char) (l : List Char)
    (h : ∀ c ∈ l, f c = c) : l.map f = l := by
  induction l with
  | nil => rfl
  | cons c t ih =>
    rw [List.map_cons, h c (List.mem_cons_self c t),
      ih (fun c hc => h c (List.mem_cons_of_mem _ hc))]

theorem digitVal_zero_char : digitVal '0' = .ok 0 := by decide

/-- Stripping leading zero digits does not change the decoded value
(each stripped `'0'` contributes `value * base + 0`). -/
theorem digitLoop_stripZeros (b : ℤ) (hb : 0 < b) (l : List Char) :
    digitLoop b (stripZeros l) 0 = digitLoop b l 0 := by
  induction l with
  | nil => rfl
  | cons c t ih =>
    rw [stripZeros.eq_def]
    split
    · next c2 rest heq =>
      obtain ⟨hc, ht⟩ : c = '0' ∧ t = c2 :: rest := by
        injection heq with h1 h2
        exact ⟨h1, h2⟩
      subst hc
      subst ht
      rw [ih]
      conv_rhs => rw [digitLoop]
      simp only [digitVal_zero_char]
      rw [if_neg (not_le.mpr hb), zero_mul, zero_add]
    · rfl

theorem digitLoop_append (b : ℤ) (l1 l2 : List Char) (v : ℤ) :
    digitLoop b (l1 ++ l2) v
      = match digitLoop b l1 v with
        | .error e => .error e
        | .ok v' => digitLoop b l2 v' := by
  induction l1 generalizing v with
  | nil => rfl
  | cons c t ih =>
    simp only [List.cons_append, digitLoop]
    cases hdv : digitVal c with
    | error e => simp only [hdv]
    | ok d =>
      simp only [hdv]
      by_cases hbd : b ≤ d
      · simp only [if_pos hbd]
      · simp only [if_neg hbd]
        exact ih (v * b + d)

theorem encodeBase_ne_nil (b n : ℕ) : encodeBase b n ≠ [] := by
  rw [encodeBase]
  split
  · simp
  · simp

theorem encodeBase_chars (b : ℕ) (hb2 : 2 ≤ b) (hb36 : b ≤ 36) :
    ∀ n : ℕ, ∀ c ∈ encodeBase b n, ∃ d : ℕ, d < 36 ∧ c = digitChar d := by
  intro n
  induction n using Nat.strong_induction_on with
  | _ n ih =>
    rw [encodeBase]
    split
    · next h =>
      intro c hc
      rcases List.mem_append.mp hc with hc1 | hc2
      · exact ih (n / b) (Nat.div_lt_self (by omega) (by omega)) c hc1
      · refine ⟨n % b, ?_, (List.mem_singleton.mp hc2)⟩
        have h2 : n % b < b := Nat.mod_lt n (by omega)
        omega
    · next h =>
      intro c hc
      refine ⟨n, ?_, List.mem_singleton.mp hc⟩
      omega

/-- The character loop decodes the canonical encoding, continuing from
any accumulated value `v`. -/
theorem digitLoop_encodeBase (b : ℕ) (hb2 : 2 ≤ b) (hb36 : b ≤ 36) :
    ∀ (n : ℕ) (v : ℤ), digitLoop (b : ℤ) (encodeBase b n) v
      = .ok (v * (b : ℤ) ^ (encodeBase b n).length + (n : ℤ)) := by
  intro n
  induction n using Nat.strong_induction_on with
  | _ n ih =>
    intro v
    rw [encodeBase]
    split
    · next h =>
      have hmodb : n % b < b := Nat.mod_lt n (by omega)
      have hmod : n % b < 36 := by omega
      rw [digitLoop_append, ih (n / b) (Nat.div_lt_self (by omega) (by omega)) v]
      simp only [digitLoop, digitVal_digitChar (n % b) hmod]
      rw [if_neg (by exact_mod_cast not_le.mpr hmodb)]
      congr 1
      rw [List.length_append, List.length_singleton, pow_succ]
      have hdm : (b : ℤ) * ((n / b : ℕ) : ℤ) + ((n % b : ℕ) : ℤ) = (n : ℤ) := by
        exact_mod_cast Nat.div_add_mod n b
      set L := (encodeBase b (n / b)).length
      linear_combination hdm
    · next h =>
      have hn36 : n < 36 := by omega
      have hnb : n < b := by omega
      simp only [digitLoop, digitVal_digitChar n hn36]
      rw [if_neg (by exact_mod_cast not_le.mpr hnb)]
      congr 1
      rw [List.length_singleton, pow_one]

/-! ## Claim C4 -/

/-- **C4.**  Round-trip: for every base `b ∈ [2, 36]` and every
non-negative integer `n`, decoding the canonical base-`b` digit string
of `n` with `parseBigIntFromBase` at base `b` returns exactly `n`. -/
theorem c4_round_trip (b n : ℕ) (hb2 : 2 ≤ b) (hb36 : b ≤ 36) :
    parseBigIntFromBase (some (String.mk (encodeBase b n))) (some (b : ℤ))
      = .ok (n : ℤ) := by
  have hne : String.mk (encodeBase b n) ≠ "" := by
    intro h
    exact encodeBase_ne_nil b n (congrArg String.data h)
  have hchars := encodeBase_chars b hb2 hb36 n
  unfold parseBigIntFromBase
  dsimp only
  rw [if_neg hne]
  have htrim : jsTrim (String.mk (encodeBase b n)).data = encodeBase b n :=
    jsTrim_eq_self _ (fun c hc => by
      obtain ⟨d, hd, rfl⟩ := hchars c hc
      exact digitChar_not_ws d hd)
  rw [htrim, map_eq_self_of_fixed _ _ (fun c hc => by
      obtain ⟨d, hd, rfl⟩ := hchars c hc
      exact digitChar_lower d hd),
    digitLoop_stripZeros _ (by exact_mod_cast Nat.lt_of_lt_of_le Nat.zero_lt_two hb2),
    digitLoop_encodeBase b hb2 hb36 n 0, zero_mul, zero_add]

/-- **C4, witness.** -/
theorem c4_witness :
    parseBigIntFromBase (some (String.mk (encodeBase 16 255))) (some (16 : ℤ))
      = .ok (255 : ℤ) :=
  c4_round_trip 16 255 (by decide) (by decide)

/-- The character loop fails (necessarily with an `InvalidDigit`-kind
error) exactly when the remaining characters contain a bad one;
otherwise it succeeds. -/
theorem digitLoop_error_iff (b : ℤ) :
    ∀ (l : List Char) (v : ℤ),
      ((∃ e, digitLoop b l v = .error e ∧ isInvalidDigit e = true)
          ↔ l.any (badChar b) = true) ∧
      (l.any (badChar b) = false → ∃ v', digitLoop b l v = .ok v')
  | [], v => by
    constructor
    · simp [digitLoop]
    · exact fun _ => ⟨v, rfl⟩
  | c :: t, v => by
    cases hdv : digitVal c with
    | error e =>
      have hbad : badChar b c = true := by
        unfold badChar
        rw [hdv]
      have herr : digitLoop b (c :: t) v = .error e := by
        rw [digitLoop, hdv]
      have hinv : isInvalidDigit e = true := by
        unfold digitVal at hdv
        split at hdv
        · exact absurd hdv (by simp)
        · split at hdv
          · exact absurd hdv (by simp)
          · cases hdv
            rfl
      constructor
      · rw [List.any_cons, hbad]
        simp only [Bool.true_or, iff_true]
        exact ⟨e, herr, hinv⟩
      · rw [List.any_cons, hbad]
        simp
    | ok d =>
      by_cases hbd : b ≤ d
      · have hbad : badChar b c = true := by
          unfold badChar
          rw [hdv]
          simpa using hbd
        have herr : digitLoop b (c :: t) v = .error (.digitTooBig d b) := by
          rw [digitLoop, hdv]
          dsimp only
          rw [if_pos hbd]
        constructor
        · rw [List.any_cons, hbad]
          simp only [Bool.true_or, iff_true]
          exact ⟨_, herr, rfl⟩
        · rw [List.any_cons, hbad]
          simp
      · have hbad : badChar b c = false := by
          unfold badChar
          rw [hdv]
          simpa using hbd
        have hstep : digitLoop b (c :: t) v = digitLoop b t (v * b + d) := by
          rw [digitLoop, hdv]
          dsimp only
          rw [if_neg hbd]
        rw [List.any_cons, hbad, Bool.false_or, hstep]
        exact digitLoop_error_iff b t (v * b + d)

/-- Stripping leading zeros removes only `'0'` characters, which are
never bad for a base `≥ 2`. -/
theorem any_badChar_stripZeros (b : ℤ) (hb : 2 ≤ b) (l : List Char) :
    (stripZeros l).any (badChar b) = l.any (badChar b) := by
  induction l with
  | nil => rfl
  | cons c t ih =>
    rw [stripZeros.eq_def]
    split
    · next c2 rest heq =>
      obtain ⟨hc, ht⟩ : c = '0' ∧ t = c2 :: rest := by
        injection heq with h1 h2
        exact ⟨h1, h2⟩
      subst hc
      subst ht
      rw [ih]
      have hbad : badChar b '0' = false := by
        unfold badChar
        rw [digitVal_zero_char]
        simpa using by omega
      conv_rhs => rw [List.any_cons, hbad, Bool.false_or]
    · rfl

/-! ## Claim C6 -/

/-- **C6.**  For a non-empty string and a radix in `[2, 36]`, the
decoder fails — always with an `InvalidDigit`-kind error — exactly
when the trimmed, lowercased string contains a character outside
`'0'..'9'`/`'a'..'z'` or one whose digit value is `≥ r`; otherwise it
succeeds. -/
theorem c6_invalid_digit_iff (s : String) (r : ℤ)
    (hs : s ≠ "") (h2 : 2 ≤ r) (h36 : r ≤ 36) :
    ((∃ e, parseBigIntFromBase (some s) (some r) = .error e ∧ isInvalidDigit e = true)
        ↔ ((jsTrim s.data).map jsToLower).any (badChar r) = true) ∧
    (((jsTrim s.data).map jsToLower).any (badChar r) = false →
      ∃ v, parseBigIntFromBase (some s) (some r) = .ok v) := by
  unfold parseBigIntFromBase
  dsimp only
  rw [if_neg hs, ← any_badChar_stripZeros r h2 ((jsTrim s.data).map jsToLower)]
  exact digitLoop_error_iff r (stripZeros ((jsTrim s.data).map jsToLower)) 0

/-- **C6, witness.**  The string `"17g"` under base 10 fails with an
`InvalidDigit`-kind error, by the iff applied to the bad digit `'g'`. -/
theorem c6_witness :
    ∃ e, parseBigIntFromBase (some "17g") (some 10) = .error e ∧ isInvalidDigit e = true :=
  (c6_invalid_digit_iff "17g" 10 (by decide) (by decide) (by decide)).1.mpr (by decide)

/-! ## Claim C5 -/

/-- **C5.**  For every successfully computed result fraction with
positive denominator: denominator `1` prints the numerator; otherwise
an exact division prints the integer quotient; otherwise the output is
`num/den` with `den > 1` and `gcd(|num|, den) = 1`. -/
theorem c5_output_formatting (pts : List Point) (f : Frac)
    (h : computeConstantC pts = .ok f) (hden : 0 < f.den) :
    (f.den = 1 → formatResult f.num f.den = .ok (toString f.num)) ∧
    (f.den ≠ 1 → f.den ∣ f.num →
      formatResult f.num f.den = .ok (toString (f.num.tdiv f.den))) ∧
    (f.den ≠ 1 → ¬ f.den ∣ f.num →
      formatResult f.num f.den = .ok (toString f.num ++ "/" ++ toString f.den) ∧
      1 < f.den ∧ Int.gcd f.num f.den = 1) := by
  have hred := computeConstantC_ok_reduced pts f h
  have hdne : f.den ≠ 0 := ne_of_gt hden
  have h1lt : f.den ≠ 1 → 1 < f.den := by omega
  refine ⟨?_, ?_, ?_⟩
  · intro h1
    unfold formatResult
    rw [if_pos h1]
  · intro h1 h2
    unfold formatResult
    rw [if_neg h1, if_neg hdne, if_pos (Int.tmod_eq_zero_of_dvd h2)]
  · intro h1 h2
    have hm : f.num.tmod f.den ≠ 0 := fun hz => h2 (Int.dvd_of_tmod_eq_zero hz)
    refine ⟨?_, h1lt h1, hred⟩
    unfold formatResult
    rw [if_neg h1, if_neg hdne, if_neg hm]

/-- **C5, witness.** -/
theorem c5_witness :
    ((⟨2, 1⟩ : Frac).den = 1 →
      formatResult (⟨2, 1⟩ : Frac).num (⟨2, 1⟩ : Frac).den
        = .ok (toString (⟨2, 1⟩ : Frac).num)) ∧
    ((⟨2, 1⟩ : Frac).den ≠ 1 → (⟨2, 1⟩ : Frac).den ∣ (⟨2, 1⟩ : Frac).num →
      formatResult (⟨2, 1⟩ : Frac).num (⟨2, 1⟩ : Frac).den
        = .ok (toString ((⟨2, 1⟩ : Frac).num.tdiv (⟨2, 1⟩ : Frac).den))) ∧
    ((⟨2, 1⟩ : Frac).den ≠ 1 → ¬ (⟨2, 1⟩ : Frac).den ∣ (⟨2, 1⟩ : Frac).num →
      formatResult (⟨2, 1⟩ : Frac).num (⟨2, 1⟩ : Frac).den
        = .ok (toString (⟨2, 1⟩ : Frac).num ++ "/" ++ toString (⟨2, 1⟩ : Frac).den) ∧
      1 < (⟨2, 1⟩ : Frac).den ∧ Int.gcd (⟨2, 1⟩ : Frac).num (⟨2, 1⟩ : Frac).den = 1) :=
  c5_output_formatting [⟨1, 3⟩, ⟨2, 6⟩, ⟨3, 11⟩] ⟨2, 1⟩ (by decide) (by decide)

/-! ## Claim C7 -/

/-- Two permuted documents whose entries have pairwise distinct `xBig`
keys produce identical sorted entry lists. -/
theorem sortEntries_perm_eq (l1 l2 : List RawEntry)
    (hperm : l1.Perm l2)
    (hdist : l1.Pairwise (fun a b => a.xBig ≠ b.xBig)) :
    sortEntries l1 = sortEntries l2 := by
  classical
  haveI htot : IsTotal RawEntry (fun a b => a.xBig ≤ b.xBig) :=
    ⟨fun a b => le_total a.xBig b.xBig⟩
  haveI htrans : IsTrans RawEntry (fun a b => a.xBig ≤ b.xBig) :=
    ⟨fun _ _ _ hab hbc => le_trans hab hbc⟩
  haveI hanti : IsAntisymm RawEntry (fun a b => a.xBig < b.xBig) :=
    ⟨fun a b hab hba => absurd (lt_trans hab hba) (lt_irrefl _)⟩
  have hsymm : ∀ {x y : RawEntry}, x.xBig ≠ y.xBig → y.xBig ≠ x.xBig := fun h => Ne.symm h
  have hs1 : (sortEntries l1).Sorted (fun a b => a.xBig ≤ b.xBig) :=
    List.sorted_insertionSort _ l1
  have hs2 : (sortEntries l2).Sorted (fun a b => a.xBig ≤ b.xBig) :=
    List.sorted_insertionSort _ l2
  have hp1 : (sortEntries l1).Perm l1 := List.perm_insertionSort _ l1
  have hp2 : (sortEntries l2).Perm l2 := List.perm_insertionSort _ l2
  have hp12 : (sortEntries l1).Perm (sortEntries l2) :=
    hp1.trans (hperm.trans hp2.symm)
  have hd1 : (sortEntries l1).Pairwise (fun a b => a.xBig ≠ b.xBig) :=
    (List.Perm.pairwise_iff hsymm hp1).mpr hdist
  have hd2 : (sortEntries l2).Pairwise (fun a b => a.xBig ≠ b.xBig) :=
    (List.Perm.pairwise_iff hsymm (hp2.trans hperm.symm)).mpr hdist
  have hlt1 : (sortEntries l1).Sorted (fun a b => a.xBig < b.xBig) :=
    (hs1.and hd1).imp fun h => lt_of_le_of_ne h.1 h.2
  have hlt2 : (sortEntries l2).Sorted (fun a b => a.xBig < b.xBig) :=
    (hs2.and hd2).imp fun h => lt_of_le_of_ne h.1 h.2
  exact List.eq_of_perm_of_sorted hp12 hlt1 hlt2

/-- **C7** (amended).  For documents whose entries carry pairwise
distinct x-coordinates, permuting the entries does not change the
output: selection re-sorts by `x` before taking the first `k`.  (On
entries with *equal* decoded x-coordinates — distinct JSON keys such
as `"01"` and `"1"` can decode to the same `BigInt` — the stable sort
preserves document order, so a permutation can change which entry is
selected; see the counterexample.) -/
theorem c7_order_independence (d1 d2 : Document)
    (hk : d1.keysK = d2.keysK)
    (hperm : d1.entries.Perm d2.entries)
    (hdist : d1.entries.Pairwise (fun a b => a.xBig ≠ b.xBig)) :
    solve d1 = solve d2 := by
  obtain ⟨k1, e1⟩ := d1
  obtain ⟨k2, e2⟩ := d2
  dsimp only at hk hperm hdist
  subst hk
  have hsort : sortEntries e1 = sortEntries e2 := sortEntries_perm_eq e1 e2 hperm hdist
  unfold solve
  dsimp only
  rw [hsort]

/-- **C7, counterexample.**  The claim quantifies over *every* document
and permutation; it fails when two entries share a decoded
x-coordinate: with `k = 1`, the stable sort keeps document order among
equal keys, so swapping the two entries changes the selected point and
the printed output (`"5"` vs `"7"`). -/
theorem c7_counterexample :
    solve ⟨some 1, [⟨1, some 10, some "5"⟩, ⟨1, some 10, some "7"⟩]⟩ = .ok "5" ∧
    solve ⟨some 1, [⟨1, some 10, some "7"⟩, ⟨1, some 10, some "5"⟩]⟩ = .ok "7" ∧
    List.Perm [(⟨1, some 10, some "5"⟩ : RawEntry), ⟨1, some 10, some "7"⟩]
      [⟨1, some 10, some "7"⟩, ⟨1, some 10, some "5"⟩] ∧
    (Except.ok "5" : Except JsErr String) ≠ .ok "7" :=
  ⟨by decide, by decide, List.Perm.swap _ _ _, by decide⟩

/-- **C7, witness.** -/
theorem c7_witness :
    solve ⟨some 2, [⟨2, some 10, some "9"⟩, ⟨1, some 10, some "5"⟩]⟩
      = solve ⟨some 2, [⟨1, some 10, some "5"⟩, ⟨2, some 10, some "9"⟩]⟩ :=
  c7_order_independence
    ⟨some 2, [⟨2, some 10, some "9"⟩, ⟨1, some 10, some "5"⟩]⟩
    ⟨some 2, [⟨1, some 10, some "5"⟩, ⟨2, some 10, some "9"⟩]⟩
    rfl (List.Perm.swap _ _ _) (by decide)

/-! ## Claim C8 -/

/-- **C8** (amended).  A document with `keys.k = 0` is *not* treated as
an error: the length check `entries.length < 0` never fires, zero
points are selected, the empty Lagrange sum is `0/1`, and the program
prints `0`. -/
theorem c8_k_zero_prints_zero (es : List RawEntry) :
    solve ⟨some 0, es⟩ = .ok "0" := by
  unfold solve
  dsimp only
  rw [if_neg (Nat.not_lt_zero _), List.take_zero]
  rfl

/-- **C8, counterexample.**  A concrete `k = 0` document on which the
program succeeds and prints `0` instead of failing. -/
theorem c8_counterexample :
    solve ⟨some 0, [⟨1, some 10, some "5"⟩]⟩ = .ok "0" := by decide

/-! ## Claim C9 -/

/-- **C9** (amended).  A missing `keys.k` fails with the
`MalformedDocument` error, and decoding an entry whose `base` field is
missing (with a non-empty value string) fails with the `RangeError`
from `BigInt(Number(undefined))`; but an entry whose `value` field is
missing does *not* fail: the falsiness check makes the decoder return
`0`, so the point is silently decoded as `y = 0`. -/
theorem c9_malformed_document :
    (∀ es : List RawEntry, solve ⟨none, es⟩ = .error .missingKeys) ∧
    (∀ s : String, s ≠ "" → parseBigIntFromBase (some s) none = .error .nanBigInt) ∧
    (∀ b : Option ℤ, parseBigIntFromBase none b = .ok 0) := by
  refine ⟨fun es => rfl, fun s hs => ?_, fun b => rfl⟩
  unfold parseBigIntFromBase
  dsimp only
  rw [if_neg hs]

/-- **C9, counterexample.**  A document with an entry missing its
`value` field is decoded as `y = 0` and the program prints a result
instead of failing with `MalformedDocument`. -/
theorem c9_counterexample :
    solve ⟨some 1, [⟨1, some 10, none⟩]⟩ = .ok "0" := by decide

/-- **C9, witness.** -/
theorem c9_witness :
    solve ⟨none, []⟩ = .error .missingKeys ∧
      parseBigIntFromBase (some "x") none = .error .nanBigInt :=
  ⟨c9_malformed_document.1 [], c9_malformed_document.2.1 "x" (by decide)⟩

/-! ## Claim C10 -/

/-- **C10.**  The decoder never validates the radix: base `37` with
digit string `"z"` succeeds and returns the positional value `35`. -/
theorem c10_no_radix_validation :
    parseBigIntFromBase (some "z") (some 37) = .ok 35 := by decide

end Hashira
